import Mathlib

/-!
Verification of `src/python/dxpy/utils/file_load_utils.py` (dx-toolkit).

This file gives a shallow embedding of the module's pure core — path
resolution helpers, the filename sanitizer, the input-file planner
(`get_job_input_filenames`), the bash-variable analyzer/synthesizer
(`analyze_bash_vars`, `gen_bash_vars`) and the output-json removal helper
(`rm_output_json_file`) — and proves the specification's claims about them.

External collaborators (the `dxpy` handle-resolution machinery, the Python
standard library's `os.path`, `pipes.quote`, `json.dumps`, and the process
environment) are modelled explicitly; each such model carries a doc comment
saying what it stands for.
-/

/-! ## Models of Python standard-library helpers -/

/-- Model of `os.path.join(a, b)` (posixpath, two arguments): if `b` is
absolute it wins; otherwise the parts are joined with a single `/` unless
`a` is empty or already ends with `/`. -/
def pathJoin (a b : String) : String :=
  if b.data.head? = some '/' then b
  else if a = "" ∨ a.data.getLast? = some '/' then a ++ b
  else a ++ "/" ++ b

/-- Model of `os.path.basename(p)` (posixpath): everything after the last
`/`. -/
def pathBasename (s : String) : String :=
  String.mk ((s.data.reverse.takeWhile (fun c => c ≠ '/')).reverse)

/-- Model of `os.path.splitext` applied to a basename (no `/` inside):
split at the last dot, unless every character before that dot is itself a
dot (so `.bashrc` has no extension). Returns (root, extension). -/
def splitextBase (s : String) : String × String :=
  match s.data.reverse.findIdx? (fun c => c = '.') with
  | none => (s, "")
  | some r =>
    let i := s.data.length - 1 - r
    if (s.data.take i).all (fun c => c = '.') then (s, "")
    else (String.mk (s.data.take i), String.mk (s.data.drop i))

/-- Model of Python `str.zfill(w)` for a string of digits: pad with leading
zeros up to width `w`. -/
def zfill (s : String) (w : Nat) : String :=
  if w ≤ s.length then s
  else String.mk (List.replicate (w - s.length) '0') ++ s

/-- Little-endian decimal digits with explicit fuel (structural recursion so
that the kernel can evaluate it). `digitsLEAux fuel n` is correct whenever
`n ≤ fuel`. -/
def digitsLEAux : Nat → Nat → List Nat
  | _, 0 => []
  | 0, _ + 1 => []
  | fuel + 1, n + 1 => (n + 1) % 10 :: digitsLEAux fuel ((n + 1) / 10)

/-- Little-endian decimal digits of a natural number. -/
def digitsLE (n : Nat) : List Nat := digitsLEAux n n

/-- Model of Python `str(i)` for a non-negative integer `i`: its decimal
representation. -/
def pyStr (n : Nat) : String :=
  if n = 0 then "0" else String.mk ((digitsLE n).reverse.map Nat.digitChar)

/-- The subdirectory name used for index `i` of a file array:
`str(i).zfill(num_digits)` (source, `add_file_array`, lines 246-247). -/
def subdirNameFor (numDigits i : Nat) : String := zfill (pyStr i) numDigits

/-! ## Data model

The job input is a parsed JSON object.  The `dxpy` link machinery is an
external collaborator: per the spec, given a value the platform decides
whether it is a remote-file reference and, if so, resolves it to a handle
with a `name` and a stable `id`; the handle may or may not be a file
object (`dxpy.DXFile`). -/

/-- Modelled from the spec: a resolved `RemoteFileHandle` — the result of
`dxpy.get_handler` on a link value — exposing the original basename
(`name`), the stable identifier (`id`), and whether the resolved handler
is a file object (`isinstance(handler, dxpy.DXFile)`). `dxpy`'s resolution
code is part of this repository but not under `src/`. -/
structure Handle where
  name : String
  id : String
  isFile : Bool
deriving DecidableEq

/-- Modelled from the spec: a JSON value that `dxpy.is_dxlink` recognizes
as a remote-file reference. `dump` is its `json.dumps` serialization (used
when the raw value is re-serialized), `handle` its resolution. -/
structure DXLink where
  dump : String
  handle : Handle
deriving DecidableEq

/-- A non-list JSON value of the job input: a string, some other plain
JSON value (carried as its `json.dumps` serialization), or a remote-file
reference. -/
inductive BVal where
  | str (s : String)
  | other (dump : String)
  | link (l : DXLink)
deriving DecidableEq

/-- A job-input value: a single value or an array of values (the design
does not nest arrays further). -/
inductive IVal where
  | base (b : BVal)
  | list (bs : List BVal)
deriving DecidableEq

/-- The parsed job input: an ordered association of input keys to values
(a parsed JSON object; keys are distinct in real inputs). -/
abbrev JobInput := List (String × IVal)

/-- One file-download record produced by the planner (source, `add_file`,
lines 228-230): destination path relative to the input directory, the
resolved handle, and the source file id. -/
structure FileDesc where
  trg_fname : String
  handler : Handle
  src_file_id : String
deriving DecidableEq

/-! ## The filename sanitizer -/

/-- Embedding of `make_unix_filename` (source lines 168-184): reject `.`
and `..`, otherwise replace every `/` by `%2F`. The replacement
`fname.replace('/', '%2F')` is embedded character by character. -/
def replaceSlashAux : List Char → List Char
  | [] => []
  | c :: cs =>
    if c = '/' then '%' :: '2' :: 'F' :: replaceSlashAux cs
    else c :: replaceSlashAux cs

def make_unix_filename (fname : String) : Except String String :=
  if fname = "." ∨ fname = ".." then
    .error ("Invalid filename " ++ fname)
  else
    .ok (String.mk (replaceSlashAux fname.data))

/-- The sanitizer as the specification words it: every `/` is replaced by
the literal three-character sequence `%2F`, and no other character is
touched. -/
def sanitizeSpec (name : String) : String :=
  String.mk (name.data.flatMap (fun c => if c = '/' then ['%', '2', 'F'] else [c]))

/-! ## The input-file planner: `get_job_input_filenames` -/

/-- `files[iname].append(desc)` on a `defaultdict(list)`: append to the
key's list, creating the key on first use. -/
def addToKey : List (String × List FileDesc) → String → FileDesc → List (String × List FileDesc)
  | [], k, d => [(k, [d])]
  | (k', ds) :: rest, k, d =>
    if k' = k then (k', ds ++ [d]) :: rest
    else (k', ds) :: addToKey rest k d

/-- Planner state: the `dirs` list and the `files` mapping being built. -/
abbrev PlanState := List String × List (String × List FileDesc)

/-- Embedding of the local `add_file(iname, subdir, value)` (source lines
218-231): skip values that are not links, skip links whose handler is not
a file object, otherwise sanitize the handle's name (which can fail) and
record the file descriptor and its target directory. -/
def add_file (st : PlanState) (iname : String) (subdir : Option String) (value : BVal) :
    Except String PlanState :=
  match value with
  | .link l =>
    if l.handle.isFile then
      match make_unix_filename l.handle.name with
      | .error e => .error e
      | .ok filename =>
        let trg_dir := match subdir with
          | none => iname
          | some sub => pathJoin iname sub
        .ok (st.1 ++ [trg_dir],
             addToKey st.2 iname
               { trg_fname := pathJoin trg_dir filename,
                 handler := l.handle,
                 src_file_id := l.handle.id })
    else .ok st
  | _ => .ok st

/-- Embedding of the inner loop of `add_file_array`: fold `add_file` over
the indexed elements. -/
def addFileArrayLoop (iname : String) (numDigits : Nat) :
    PlanState → List (Nat × BVal) → Except String PlanState
  | st, [] => .ok st
  | st, (i, link) :: rest =>
    match add_file st iname (some (subdirNameFor numDigits i)) link with
    | .error e => .error e
    | .ok st' => addFileArrayLoop iname numDigits st' rest

/-- Embedding of the local `add_file_array(input_name, links)` (source
lines 240-248): an empty array contributes nothing; otherwise the array's
own directory is recorded and each element is attempted as a file under a
zero-padded index subdirectory. -/
def add_file_array (st : PlanState) (input_name : String) (links : List BVal) :
    Except String PlanState :=
  if links.length = 0 then .ok st
  else
    let numDigits := (pyStr (links.length - 1)).length
    addFileArrayLoop input_name numDigits (st.1 ++ [input_name], st.2) links.enum

/-- One iteration of the main loop of `get_job_input_filenames` (source
lines 250-255). -/
def planEntry (st : PlanState) : String × IVal → Except String PlanState
  | (input_name, .list vs) => add_file_array st input_name vs
  | (input_name, .base v) => add_file st input_name none v

/-- The loop of `get_job_input_filenames` over all entries. -/
def planLoop : PlanState → JobInput → Except String PlanState
  | st, [] => .ok st
  | st, e :: rest =>
    match planEntry st e with
    | .error err => .error err
    | .ok st' => planLoop st' rest

/-- Embedding of `get_job_input_filenames` (source lines 190-262): returns
the directory list, the file mapping, and the `rest_hash` of entries whose
key produced no file descriptor. -/
def get_job_input_filenames (job_input : JobInput) :
    Except String (List String × List (String × List FileDesc) × JobInput) :=
  match planLoop ([], []) job_input with
  | .error e => .error e
  | .ok st =>
    let rest_hash := job_input.filter (fun kv => decide (kv.1 ∉ st.2.map Prod.fst))
    .ok (st.1, st.2, rest_hash)

/-! ## Sanity checks on small concrete inputs -/

example : make_unix_filename "a/b" = .ok "a%2Fb" := rfl
example : make_unix_filename "." = .error "Invalid filename ." := rfl
example : pyStr 0 = "0" := rfl
example : pyStr 137 = "137" := rfl
example : subdirNameFor 2 7 = "07" := rfl
example : pathJoin "reads" "0" = "reads/0" := rfl
example : splitextBase "A.tar.gz" = ("A.tar", ".gz") := rfl
example : splitextBase ".bashrc" = (".bashrc", "") := rfl
example : pathBasename "seq1/NC_1.fasta" = "NC_1.fasta" := rfl

example :
    get_job_input_filenames
      [("seq1", .base (.link ⟨"L1", ⟨"NC_1.fasta", "file-1111", true⟩⟩)),
       ("evalue", .base (.other "0.01"))] =
    .ok (["seq1"],
         [("seq1", [⟨"seq1/NC_1.fasta", ⟨"NC_1.fasta", "file-1111", true⟩, "file-1111"⟩])],
         [("evalue", .base (.other "0.01"))]) := rfl

example :
    get_job_input_filenames
      [("reads", .list [.link ⟨"LA", ⟨"A.fastq", "file-A", true⟩⟩,
                        .link ⟨"LB", ⟨"B.fastq", "file-B", true⟩⟩])] =
    .ok (["reads", "reads/0", "reads/1"],
         [("reads", [⟨"reads/0/A.fastq", ⟨"A.fastq", "file-A", true⟩, "file-A"⟩,
                     ⟨"reads/1/B.fastq", ⟨"B.fastq", "file-B", true⟩, "file-B"⟩])],
         []) := rfl

example :
    get_job_input_filenames [("foo", .list [])] =
    .ok ([], [], [("foo", .list [])]) := rfl

/-! ## The bash-variable analyzer: `analyze_bash_vars` -/

/-- The per-key record of four parallel sequences built by
`analyze_bash_vars` (source lines 288-301). The source calls the third
field `prefix`, which is a Lean keyword, so it is named `pfx` here. -/
structure KeyDesc where
  handler : List Handle
  filename : List String
  pfx : List String
  path : List String
deriving DecidableEq

/-- The empty `KeyDesc` (the `factory` of source line 288). -/
def emptyKeyDesc : KeyDesc := ⟨[], [], [], []⟩

/-- The body of the inner loop of `analyze_bash_vars` (source lines
293-301): append the entry's basename, prefix, handle and full path to the
key's four sequences. -/
def analyzeEntry (relHomeDir : String) (d : KeyDesc) (entry : FileDesc) : KeyDesc :=
  let basename := pathBasename entry.trg_fname
  { handler := d.handler ++ [entry.handler],
    filename := d.filename ++ [basename],
    pfx := d.pfx ++ [(splitextBase basename).1],
    path := d.path ++ [pathJoin relHomeDir entry.trg_fname] }

/-- Embedding of `analyze_bash_vars` (source lines 264-302): run the
planner, then derive the four parallel sequences per file key. The
relative home directory is `get_input_dir(expand_home_var=False)`, i.e.
`os.path.join("$HOME", "in")`. -/
def analyze_bash_vars (job_input : JobInput) :
    Except String (List (String × KeyDesc) × JobInput) :=
  match get_job_input_filenames job_input with
  | .error e => .error e
  | .ok (_, file_entries, rest_hash) =>
    let relHomeDir := pathJoin "$HOME" "in"
    .ok (file_entries.map (fun ke => (ke.1, ke.2.foldl (analyzeEntry relHomeDir) emptyKeyDesc)),
         rest_hash)

/-! ## The bash-variable synthesizer: `gen_bash_vars`

The source of `gen_bash_vars` (lines 308-357) does not compile as
written: line 340, the header of its local function
`gen_text_line_and_name_collision`, reads
`def gen_text_line_and_name_collision(key, val:` — the parameter list
opens a parenthesis that is never closed before the terminating colon, a
Python SyntaxError that makes the whole module fail to parse (claims C7
and C9 record this as a code bug). The definitions below therefore embed
the evidently intended code, obtained by closing that parenthesis; the
defect itself is modelled right below as a fact about the line's text. -/

/-- Bracket balance of a line of Python source: the tokenizer's running
count of opened-minus-closed parentheses. The header of a `def` statement
must close every parenthesis it opens before its terminating colon. -/
def parenBalance (cs : List Char) : Int :=
  cs.foldl (fun a c => if c = '(' then a + 1 else if c = ')' then a - 1 else a) 0

/-- The exact text of source line 340: the header of the local function
`gen_text_line_and_name_collision` inside `gen_bash_vars`. -/
def source_line_340 : String := "    def gen_text_line_and_name_collision(key, val:"

/-- The single-quote character, written by code point to keep the file free
of stray apostrophes. -/
def squoteChar : Char := Char.ofNat 39

/-- The characters Python 2's `pipes._safechars` considers safe: ASCII
letters, digits, and `@%_-+=:,./`. -/
def isSafeChar (c : Char) : Bool :=
  c.isAlpha || c.isDigit || c ∈ ['@', '%', '_', '-', '+', '=', ':', ',', '.', '/']

/-- The replacement of a single quote inside a quoted string:
`'"'"'` (close quote, quoted quote, reopen quote). -/
def squoteEsc : List Char := [squoteChar, '"', squoteChar, '"', squoteChar]

def pipesQuoteAux : List Char → List Char
  | [] => []
  | c :: cs => (if c = squoteChar then squoteEsc else [c]) ++ pipesQuoteAux cs

/-- Model of Python 2 `pipes.quote`: the empty string becomes a pair of
single quotes; a string of safe characters is returned unchanged; anything
else is wrapped in single quotes with embedded single quotes escaped. -/
def pipesQuote (s : String) : String :=
  if s = "" then String.mk [squoteChar, squoteChar]
  else if s.data.all isSafeChar then s
  else String.mk (squoteChar :: pipesQuoteAux s.data ++ [squoteChar])

/-- Modelled from the spec: the canonical JSON link representation of a
resolved handle, `json.dumps(dxpy.dxlink(handler))` — a one-key object
mapping `$dnanexus_link` to the file id. `dxpy.dxlink` is part of this
repository but not under `src/`. -/
def dxlinkDump (h : Handle) : String :=
  "\x7b\"$dnanexus_link\": \"" ++ h.id ++ "\"\x7d"

/-- An element as seen by the local `string_of_elem` (source lines
318-326): a Python string, a `DXFile` handler, or any other value carried
as its `json.dumps` serialization. -/
inductive Elem where
  | estr (s : String)
  | ehandle (h : Handle)
  | ejson (dump : String)
deriving DecidableEq

/-- Embedding of `string_of_elem`: strings are shell-quoted as themselves,
`DXFile` handlers are re-serialized to their canonical link JSON, anything
else is JSON-serialized; the result is always `pipes.quote`d. -/
def string_of_elem : Elem → String
  | .estr s => pipesQuote s
  | .ehandle h => pipesQuote (dxlinkDump h)
  | .ejson dump => pipesQuote dump

/-- A value as seen by the local `string_of_value`: a Python list or a
single value. -/
inductive SVal where
  | single (e : Elem)
  | list (es : List Elem)
deriving DecidableEq

/-- Embedding of `string_of_value` (source lines 328-336): a list of more
than one element becomes `( e0 e1 ... )`; otherwise the code indexes
`val[0]`, which raises `IndexError` on an empty list; a non-list is
encoded directly. -/
def string_of_value : SVal → Except String String
  | .list es =>
    if es.length > 1 then
      .ok ("( " ++ String.intercalate " " (es.map string_of_elem) ++ " )")
    else
      match es with
      | [] => .error "IndexError"
      | e :: _ => .ok (string_of_elem e)
  | .single e => .ok (string_of_elem e)

/-- How a rest-hash value reaches `string_of_elem`: raw strings stay
strings; raw link objects are plain dicts there (not `DXFile`s), so they
are JSON-serialized like any other value. -/
def elemOfBVal : BVal → Elem
  | .str s => .estr s
  | .other dump => .ejson dump
  | .link l => .ejson l.dump

def svalOfIVal : IVal → SVal
  | .base b => .single (elemOfBVal b)
  | .list bs => .list (bs.map elemOfBVal)

/-- The synthesizer's mutable state: the `all_keys` set, the
`var_defs_hash` mapping (as an ordered association list), and the keys for
which a collision warning was written to stderr (source keeps no list; the
warnings here record the colliding key of each emitted message). -/
structure GenState where
  all_keys : List String
  var_defs : List (String × String)
  warnings : List String
deriving DecidableEq

/-- Embedding of the local `gen_text_line_and_name_collision` (source
lines 340-347) as evidently intended — the source's own def line at 340 is
the SyntaxError recorded in `source_line_340`, so the function as written
never compiles: register the binding only when the key collides neither
with the environment nor with an already-registered key; otherwise emit a
warning and drop it. -/
def gen_text_line (env : List String) (st : GenState) (key val : String) : GenState :=
  if key ∉ env ∧ key ∉ st.all_keys then
    { st with all_keys := st.all_keys ++ [key], var_defs := st.var_defs ++ [(key, val)] }
  else
    { st with warnings := st.warnings ++ [key] }

/-- The loop over file keys (source lines 349-353): four candidate
variables per key. -/
def genFileKeys (env : List String) :
    GenState → List (String × KeyDesc) → Except String GenState
  | st, [] => .ok st
  | st, (file_key, desc) :: rest =>
    match string_of_value (.list (desc.handler.map Elem.ehandle)) with
    | .error e => .error e
    | .ok v1 =>
      let st := gen_text_line env st file_key v1
      match string_of_value (.list (desc.filename.map Elem.estr)) with
      | .error e => .error e
      | .ok v2 =>
        let st := gen_text_line env st (file_key ++ "_filename") v2
        match string_of_value (.list (desc.pfx.map Elem.estr)) with
        | .error e => .error e
        | .ok v3 =>
          let st := gen_text_line env st (file_key ++ "_prefix") v3
          match string_of_value (.list (desc.path.map Elem.estr)) with
          | .error e => .error e
          | .ok v4 =>
            genFileKeys env (gen_text_line env st (file_key ++ "_path") v4) rest

/-- The loop over rest keys (source lines 354-355): one candidate variable
per key, holding the re-encoded original value. -/
def genRestKeys (env : List String) :
    GenState → JobInput → Except String GenState
  | st, [] => .ok st
  | st, (key, v) :: rest =>
    match string_of_value (svalOfIVal v) with
    | .error e => .error e
    | .ok s => genRestKeys env (gen_text_line env st key s) rest

/-- Embedding of `gen_bash_vars` (source lines 308-357) as evidently
intended — the function as written never compiles because of the
SyntaxError at line 340 inside its body — with the process environment's
variable names passed explicitly (the source reads them from
`dxpy.compat.environ`). Returns the registered bindings and the warned
keys. -/
def gen_bash_vars (env : List String) (job_input : JobInput) :
    Except String (List (String × String) × List String) :=
  match analyze_bash_vars job_input with
  | .error e => .error e
  | .ok (file_key_descs, rest_hash) =>
    match genFileKeys env ⟨[], [], []⟩ file_key_descs with
    | .error e => .error e
    | .ok st =>
      match genRestKeys env st rest_hash with
      | .error e => .error e
      | .ok st => .ok (st.var_defs, st.warnings)

/-! ## `rm_output_json_file` and the module's imports -/

/-- The names bound at module top level by the source's import statements
(source lines 83-92): `import json, pipes, os, math, sys, collections,
textwrap, dxpy`, `from dxpy.compat import environ`, and
`from ..exceptions import DXError`. Nothing imports `errno`. -/
def module_imports : List String :=
  ["json", "pipes", "os", "math", "sys", "collections", "textwrap",
   "dxpy", "environ", "DXError"]

/-- The possible outcomes of `os.remove(path)` on the output JSON file:
success, failure with `OSError(ENOENT)` because the file does not exist,
or failure with some other `OSError` errno. -/
inductive RemoveResult where
  | success
  | enoent
  | otherError (errnoVal : Nat)
deriving DecidableEq

/-- A Python-level outcome: a normal return or an uncaught exception,
identified by its class name. -/
inductive PyResult (α : Type) where
  | ok (a : α)
  | exc (excName : String)
deriving DecidableEq

/-- Embedding of `rm_output_json_file` (source lines 141-152). When
`os.remove` raises `OSError`, the handler evaluates `errno.ENOENT`; the
name `errno` resolves only if the module imported it, otherwise the lookup
itself raises `NameError` out of the handler. -/
def rm_output_json_file (r : RemoveResult) : PyResult Unit :=
  match r with
  | .success => .ok ()
  | .enoent =>
    if "errno" ∈ module_imports then .ok () else .exc "NameError"
  | .otherError _ =>
    if "errno" ∈ module_imports then .exc "OSError" else .exc "NameError"

/-! ## Sanity checks for the analyzer and synthesizer -/

example :
    analyze_bash_vars
      [("genes", .base (.link ⟨"LG", ⟨"A.tar.gz", "file-G", true⟩⟩))] =
    .ok ([("genes", ⟨[⟨"A.tar.gz", "file-G", true⟩], ["A.tar.gz"], ["A.tar"],
                     ["$HOME/in/genes/A.tar.gz"]⟩)], []) := rfl

example : pipesQuote "A.tar" = "A.tar" := rfl
example : pipesQuote "" = String.mk [squoteChar, squoteChar] := rfl
example : string_of_value (.list []) = .error "IndexError" := rfl

example :
    gen_bash_vars ["x"] [("x", .base (.str "v")), ("y", .base (.str "w"))] =
    .ok ([("y", "w")], ["x"]) := rfl

example :
    gen_bash_vars [] [("x", .list [])] = .error "IndexError" := rfl

/-! ## Decimal strings: supporting lemmas for the zero-padded index names -/

/-- The numeric value of a digit character. -/
def charVal (c : Char) : Nat := c.toNat - 48

/-- The value of a big-endian string of digit characters. -/
def valueOfDigits : List Char → Nat
  | [] => 0
  | c :: cs => charVal c * 10 ^ cs.length + valueOfDigits cs

/-- A digit character: code point between 48 and 57. -/
def IsDigitChar (c : Char) : Prop := 48 ≤ c.toNat ∧ c.toNat ≤ 57

theorem digitsLEAux_eq : ∀ n fuel, n ≤ fuel → digitsLEAux fuel n = Nat.digits 10 n := by
  intro n
  induction n using Nat.strong_induction_on with
  | _ n ih =>
    intro fuel hle
    match n, fuel with
    | 0, fuel => simp [digitsLEAux]
    | m + 1, 0 => omega
    | m + 1, fuel + 1 =>
      have hdiv : (m + 1) / 10 < m + 1 := Nat.div_lt_self (Nat.succ_pos m) (by norm_num)
      have hrec : digitsLEAux fuel ((m + 1) / 10) = Nat.digits 10 ((m + 1) / 10) :=
        ih _ hdiv fuel (by omega)
      rw [show digitsLEAux (fuel + 1) (m + 1) = (m + 1) % 10 :: digitsLEAux fuel ((m + 1) / 10) from rfl,
          hrec, ← Nat.digits_def' (b := 10) (by norm_num) (Nat.succ_pos m)]

theorem digitsLE_eq (n : Nat) : digitsLE n = Nat.digits 10 n :=
  digitsLEAux_eq n n le_rfl

theorem digitChar_toNat {d : Nat} (h : d < 10) : (Nat.digitChar d).toNat = 48 + d := by
  interval_cases d <;> rfl

theorem charVal_digitChar {d : Nat} (h : d < 10) : charVal (Nat.digitChar d) = d := by
  simp [charVal, digitChar_toNat h]

theorem isDigitChar_digitChar {d : Nat} (h : d < 10) : IsDigitChar (Nat.digitChar d) := by
  have := digitChar_toNat h
  exact ⟨by omega, by omega⟩

theorem valueOfDigits_append_singleton (xs : List Char) (c : Char) :
    valueOfDigits (xs ++ [c]) = 10 * valueOfDigits xs + charVal c := by
  induction xs with
  | nil => simp [valueOfDigits]
  | cons x xs ih =>
    show charVal x * 10 ^ (xs ++ [c]).length + valueOfDigits (xs ++ [c]) = _
    rw [ih, List.length_append]
    show charVal x * 10 ^ (xs.length + 1) + _ = _
    simp only [valueOfDigits]
    ring

theorem valueOfDigits_rev_map (l : List Nat) (h : ∀ d ∈ l, d < 10) :
    valueOfDigits ((l.map Nat.digitChar).reverse) = Nat.ofDigits 10 l := by
  induction l with
  | nil => simp [valueOfDigits]
  | cons d l ih =>
    have hd : d < 10 := h d (by simp)
    simp only [List.map_cons, List.reverse_cons, valueOfDigits_append_singleton,
      ih (fun x hx => h x (by simp [hx])), charVal_digitChar hd, Nat.ofDigits_cons]
    ring

theorem pyStr_data (n : Nat) :
    (pyStr n).data = if n = 0 then ['0'] else ((Nat.digits 10 n).map Nat.digitChar).reverse := by
  by_cases h : n = 0
  · simp [pyStr, h]
  · simp [pyStr, h, digitsLE_eq, List.map_reverse]

theorem pyStr_value (n : Nat) : valueOfDigits (pyStr n).data = n := by
  rw [pyStr_data]
  by_cases h : n = 0
  · simp [h, valueOfDigits]
    rfl
  · simp only [h, if_false]
    rw [valueOfDigits_rev_map _ (fun d hd => Nat.digits_lt_base (by norm_num) hd)]
    exact_mod_cast Nat.ofDigits_digits 10 n

theorem pyStr_digits (n : Nat) : ∀ c ∈ (pyStr n).data, IsDigitChar c := by
  rw [pyStr_data]
  by_cases h : n = 0
  · simp only [h, if_true]
    intro c hc
    simp at hc
    subst hc
    exact ⟨by decide, by decide⟩
  · simp only [h, if_false]
    intro c hc
    rw [List.mem_reverse, List.mem_map] at hc
    obtain ⟨d, hd, rfl⟩ := hc
    exact isDigitChar_digitChar (Nat.digits_lt_base (by norm_num) hd)

theorem pyStr_length_mono {i j : Nat} (h : i ≤ j) :
    (pyStr i).length ≤ (pyStr j).length := by
  have hlen : ∀ n : Nat, (pyStr n).length =
      if n = 0 then 1 else (Nat.digits 10 n).length := by
    intro n
    show (pyStr n).data.length = _
    rw [pyStr_data]
    by_cases hn : n = 0 <;> simp [hn]
  rw [hlen, hlen]
  by_cases hi : i = 0
  · by_cases hj : j = 0
    · simp [hi, hj]
    · simp only [hi, hj, if_true, if_false]
      have : Nat.digits 10 j ≠ [] := by
        simp [Nat.digits_ne_nil_iff_ne_zero, hj]
      have := List.length_pos.mpr this
      omega
  · have hj : j ≠ 0 := by omega
    simp only [hi, hj, if_false]
    exact Nat.le_digits_len_le 10 i j h

theorem valueOfDigits_lt (cs : List Char) (h : ∀ c ∈ cs, IsDigitChar c) :
    valueOfDigits cs < 10 ^ cs.length := by
  induction cs with
  | nil => simp [valueOfDigits]
  | cons c cs ih =>
    have hc : charVal c ≤ 9 := by
      have := (h c (by simp)).2
      simp [charVal]
      omega
    have hrest : valueOfDigits cs < 10 ^ cs.length := ih (fun x hx => h x (by simp [hx]))
    have : charVal c * 10 ^ cs.length + valueOfDigits cs < (charVal c + 1) * 10 ^ cs.length := by
      nlinarith
    calc charVal c * 10 ^ cs.length + valueOfDigits cs
        < (charVal c + 1) * 10 ^ cs.length := this
      _ ≤ 10 * 10 ^ cs.length := by nlinarith
      _ = 10 ^ (cs.length + 1) := by ring

theorem char_eq_of_not_lt {a b : Char} (h1 : ¬ a < b) (h2 : ¬ b < a) : a = b := by
  have h3 : ¬ a.toNat < b.toNat := h1
  have h4 : ¬ b.toNat < a.toNat := h2
  have h5 : a.toNat = b.toNat := by omega
  exact Char.eq_of_val_eq (UInt32.toNat.inj h5)

theorem char_lt_irrefl (a : Char) : ¬ a < a := by
  intro h
  have h2 : a.toNat < a.toNat := h
  omega

/-- On equal-length strings of digit characters, the lexicographic order
coincides with the order of the represented numbers. -/
theorem digit_chars_lt_iff_value_lt :
    ∀ (ds es : List Char), ds.length = es.length →
      (∀ c ∈ ds, IsDigitChar c) → (∀ c ∈ es, IsDigitChar c) →
      (ds < es ↔ valueOfDigits ds < valueOfDigits es) := by
  intro ds
  induction ds with
  | nil =>
    intro es hlen _ _
    have : es = [] := by
      cases es with
      | nil => rfl
      | cons e es => simp at hlen
    subst this
    constructor
    · intro h
      cases h
    · intro h
      simp [valueOfDigits] at h
  | cons d ds ih =>
    intro es hlen hd he
    cases es with
    | nil => simp at hlen
    | cons e es =>
      have hlen' : ds.length = es.length := by simpa using hlen
      have hdd : IsDigitChar d := hd d (by simp)
      have hde : IsDigitChar e := he e (by simp)
      have hds : ∀ c ∈ ds, IsDigitChar c := fun c hc => hd c (by simp [hc])
      have hes : ∀ c ∈ es, IsDigitChar c := fun c hc => he c (by simp [hc])
      have hvds : valueOfDigits ds < 10 ^ ds.length := valueOfDigits_lt ds hds
      have hves : valueOfDigits es < 10 ^ es.length := valueOfDigits_lt es hes
      by_cases hlt : d < e
      · apply iff_of_true (List.Lex.rel hlt)
        have hcv : charVal d < charVal e := by
          have h1 : d.toNat < e.toNat := hlt
          have := hdd.1
          have := hde.1
          simp only [charVal]
          omega
        show charVal d * 10 ^ ds.length + valueOfDigits ds <
             charVal e * 10 ^ es.length + valueOfDigits es
        calc charVal d * 10 ^ ds.length + valueOfDigits ds
            < charVal d * 10 ^ ds.length + 10 ^ ds.length := by omega
          _ = (charVal d + 1) * 10 ^ ds.length := by ring
          _ ≤ charVal e * 10 ^ ds.length := Nat.mul_le_mul_right _ (by omega)
          _ = charVal e * 10 ^ es.length := by rw [hlen']
          _ ≤ charVal e * 10 ^ es.length + valueOfDigits es := Nat.le_add_right _ _
      · by_cases hgt : e < d
        · apply iff_of_false
          · intro h
            cases h with
            | cons h3 => exact char_lt_irrefl d hgt
            | rel h1 => exact hlt h1
          · have hcv : charVal e < charVal d := by
              have h1 : e.toNat < d.toNat := hgt
              have := hdd.1
              have := hde.1
              simp only [charVal]
              omega
            have hvv : charVal e * 10 ^ es.length + valueOfDigits es <
                   charVal d * 10 ^ ds.length + valueOfDigits ds := by
              calc charVal e * 10 ^ es.length + valueOfDigits es
                  < charVal e * 10 ^ es.length + 10 ^ es.length := by omega
                _ = (charVal e + 1) * 10 ^ es.length := by ring
                _ ≤ charVal d * 10 ^ es.length := Nat.mul_le_mul_right _ (by omega)
                _ = charVal d * 10 ^ ds.length := by rw [hlen']
                _ ≤ charVal d * 10 ^ ds.length + valueOfDigits ds := Nat.le_add_right _ _
            show ¬ (charVal d * 10 ^ ds.length + valueOfDigits ds <
                    charVal e * 10 ^ es.length + valueOfDigits es)
            omega
        · have heq : d = e := char_eq_of_not_lt hlt hgt
          subst heq
          have htail : ds < es ↔ valueOfDigits ds < valueOfDigits es := ih es hlen' hds hes
          constructor
          · intro h
            have h3 : ds < es := by
              cases h with
              | cons h3 => exact h3
              | rel h1 => exact absurd h1 (char_lt_irrefl d)
            show charVal d * 10 ^ ds.length + valueOfDigits ds <
                 charVal d * 10 ^ es.length + valueOfDigits es
            rw [hlen']
            have := htail.mp h3
            omega
          · intro h
            apply List.Lex.cons
            apply htail.mpr
            have h2 : charVal d * 10 ^ ds.length + valueOfDigits ds <
                      charVal d * 10 ^ es.length + valueOfDigits es := h
            rw [hlen'] at h2
            omega

theorem zfill_data (s : String) (w : Nat) :
    (zfill s w).data = List.replicate (w - s.length) '0' ++ s.data := by
  by_cases h : w ≤ s.length
  · have : w - s.length = 0 := by omega
    simp [zfill, h, this]
  · simp only [zfill, h, if_false]
    exact String.data_append _ _

theorem zfill_length (s : String) (w : Nat) :
    (zfill s w).length = max w s.length := by
  show (zfill s w).data.length = _
  rw [zfill_data]
  simp only [List.length_append, List.length_replicate]
  show w - s.data.length + s.data.length = max w s.data.length
  omega

theorem valueOfDigits_replicate_zero (k : Nat) (cs : List Char) :
    valueOfDigits (List.replicate k '0' ++ cs) = valueOfDigits cs := by
  induction k with
  | zero => simp
  | succ k ih =>
    show charVal '0' * 10 ^ (List.replicate k '0' ++ cs).length +
         valueOfDigits (List.replicate k '0' ++ cs) = _
    rw [ih]
    have : charVal '0' = 0 := rfl
    simp [this]

theorem zfill_value (s : String) (w : Nat) :
    valueOfDigits (zfill s w).data = valueOfDigits s.data := by
  rw [zfill_data, valueOfDigits_replicate_zero]

theorem zfill_digits (s : String) (w : Nat) (h : ∀ c ∈ s.data, IsDigitChar c) :
    ∀ c ∈ (zfill s w).data, IsDigitChar c := by
  rw [zfill_data]
  intro c hc
  rw [List.mem_append] at hc
  cases hc with
  | inl hc =>
    have := List.eq_of_mem_replicate hc
    subst this
    exact ⟨by decide, by decide⟩
  | inr hc => exact h c hc

theorem subdirNameFor_length {N i : Nat} (hN : 0 < N) (hi : i < N) :
    (subdirNameFor ((pyStr (N - 1)).length) i).length = (pyStr (N - 1)).length := by
  have hmono : (pyStr i).length ≤ (pyStr (N - 1)).length :=
    pyStr_length_mono (by omega)
  rw [subdirNameFor, zfill_length]
  omega

theorem subdirNameFor_value (w i : Nat) :
    valueOfDigits (subdirNameFor w i).data = i := by
  rw [subdirNameFor, zfill_value, pyStr_value]

theorem subdirNameFor_digits (w i : Nat) :
    ∀ c ∈ (subdirNameFor w i).data, IsDigitChar c :=
  zfill_digits _ _ (pyStr_digits i)

theorem subdirNameFor_strict_mono {N i j : Nat} (hN : 0 < N) (hi : i < N) (hj : j < N)
    (hij : i < j) :
    subdirNameFor ((pyStr (N - 1)).length) i < subdirNameFor ((pyStr (N - 1)).length) j := by
  rw [String.lt_iff_toList_lt]
  have hlen : (subdirNameFor ((pyStr (N - 1)).length) i).data.length =
              (subdirNameFor ((pyStr (N - 1)).length) j).data.length := by
    show (subdirNameFor _ i).length = (subdirNameFor _ j).length
    rw [subdirNameFor_length hN hi, subdirNameFor_length hN hj]
  apply (digit_chars_lt_iff_value_lt _ _ hlen
    (subdirNameFor_digits _ i) (subdirNameFor_digits _ j)).mpr
  rw [subdirNameFor_value, subdirNameFor_value]
  exact hij

/-- C2: for every non-empty file array of length N, the generated
subdirectory names are the decimal indices 0..N-1, each zero-padded
(`str(i).zfill(len(str(N-1)))`, the names used by `add_file_array`) to the
width of `str(N-1)`; they all have that same string length, are strictly
increasing in lexicographic order (so lexicographic order coincides with
numeric order), and are pairwise distinct. -/
theorem c2_array_subdir_names (N : Nat) (hN : 0 < N) :
    (∀ s ∈ (List.range N).map (subdirNameFor ((pyStr (N - 1)).length)),
        s.length = (pyStr (N - 1)).length)
    ∧ ((List.range N).map (subdirNameFor ((pyStr (N - 1)).length))).Pairwise (· < ·)
    ∧ ((List.range N).map (subdirNameFor ((pyStr (N - 1)).length))).Nodup := by
  have hpair : ((List.range N).map (subdirNameFor ((pyStr (N - 1)).length))).Pairwise (· < ·) := by
    rw [List.pairwise_map]
    rw [List.pairwise_iff_getElem]
    intro i j hi hj hij
    simp only [List.length_range] at hi hj
    simp only [List.getElem_range]
    exact subdirNameFor_strict_mono hN hi hj hij
  refine ⟨?_, hpair, ?_⟩
  · intro s hs
    rw [List.mem_map] at hs
    obtain ⟨i, hi, rfl⟩ := hs
    exact subdirNameFor_length hN (List.mem_range.mp hi)
  · exact hpair.imp (fun h => ne_of_lt h)

/-- Witness for C2, at a two-digit width: a 12-element array gets the
subdirectory names 00, 01, ..., 11. -/
theorem c2_array_subdir_names_witness :
    (∀ s ∈ (List.range 12).map (subdirNameFor ((pyStr (12 - 1)).length)),
        s.length = (pyStr (12 - 1)).length)
    ∧ ((List.range 12).map (subdirNameFor ((pyStr (12 - 1)).length))).Pairwise (· < ·)
    ∧ ((List.range 12).map (subdirNameFor ((pyStr (12 - 1)).length))).Nodup :=
  c2_array_subdir_names 12 (by decide)

/-! ## Planner characterization lemmas -/

/-- Whether `add_file` accepts a value: it must be a link whose resolved
handler is a file object. -/
def isAddable : BVal → Bool
  | .link l => l.handle.isFile
  | _ => false

/-- The target directory `add_file` uses: the key itself for a scalar, the
joined `key/subdir` for an array element. -/
def trgDir (iname : String) : Option String → String
  | none => iname
  | some sub => pathJoin iname sub

/-- The directories one job-input entry appends to the planner's `dirs`
list: nothing for a non-file scalar or an empty array; the key itself for
a file scalar; for a non-empty array, the key followed by one
`key/<padded index>` entry per element accepted by `add_file`. -/
def entryDirs : String × IVal → List String
  | (k, .base v) => if isAddable v then [k] else []
  | (k, .list vs) =>
    if vs.length = 0 then []
    else k :: vs.enum.filterMap (fun p =>
      if isAddable p.2 then
        some (pathJoin k (subdirNameFor ((pyStr (vs.length - 1)).length) p.1))
      else none)

/-- Whether an entry contributes at least one file descriptor (assuming
sanitization succeeds). -/
def contributes : String × IVal → Bool
  | (_, .base v) => isAddable v
  | (_, .list vs) => vs.any isAddable

theorem addToKey_keys (fs : List (String × List FileDesc)) (k : String) (d : FileDesc) :
    (addToKey fs k d).map Prod.fst =
      if k ∈ fs.map Prod.fst then fs.map Prod.fst else fs.map Prod.fst ++ [k] := by
  induction fs with
  | nil => simp [addToKey]
  | cons e fs ih =>
    obtain ⟨k', ds⟩ := e
    by_cases h : k' = k
    · subst h
      simp [addToKey]
    · simp only [addToKey, h, if_false, List.map_cons, ih]
      have hne : ¬ (k = k') := fun hh => h hh.symm
      by_cases hmem : k ∈ fs.map Prod.fst
      · simp [hmem, hne]
      · simp [hmem, hne]

theorem add_file_not_addable {st : PlanState} {iname : String} {sub : Option String}
    {v : BVal} (h : isAddable v = false) :
    add_file st iname sub v = .ok st := by
  cases v with
  | str s => rfl
  | other d => rfl
  | link l =>
    simp [isAddable] at h
    simp [add_file, h]

theorem add_file_dirs {st st' : PlanState} {iname : String} {sub : Option String}
    {v : BVal} (h : add_file st iname sub v = .ok st') :
    st'.1 = st.1 ++ (if isAddable v then [trgDir iname sub] else []) := by
  cases v with
  | str s =>
    simp [add_file] at h
    simp [← h, isAddable]
  | other d =>
    simp [add_file] at h
    simp [← h, isAddable]
  | link l =>
    by_cases hf : l.handle.isFile
    · simp only [add_file, hf, if_true] at h
      cases hmk : make_unix_filename l.handle.name with
      | error e => rw [hmk] at h; exact absurd h (by simp)
      | ok filename =>
        rw [hmk] at h
        have h2 := (Except.ok.injEq _ _).mp h.symm
        rw [h2]
        cases sub <;> simp [isAddable, hf, trgDir]
    · rw [add_file_not_addable (v := .link l) (by simp [isAddable, hf])] at h
      have h2 := (Except.ok.injEq _ _).mp h
      rw [← h2]
      simp [isAddable, hf]

theorem add_file_keys {st st' : PlanState} {iname : String} {sub : Option String}
    {v : BVal} (h : add_file st iname sub v = .ok st') :
    ∀ k ∈ st'.2.map Prod.fst, k ∈ st.2.map Prod.fst ∨ k = iname := by
  cases v with
  | str s =>
    simp [add_file] at h
    intro k hk
    exact Or.inl (h ▸ hk)
  | other d =>
    simp [add_file] at h
    intro k hk
    exact Or.inl (h ▸ hk)
  | link l =>
    by_cases hf : l.handle.isFile
    · simp only [add_file, hf, if_true] at h
      cases hmk : make_unix_filename l.handle.name with
      | error e => rw [hmk] at h; exact absurd h (by simp)
      | ok filename =>
        rw [hmk] at h
        have h2 := (Except.ok.injEq _ _).mp h.symm
        intro k hk
        rw [h2] at hk
        rw [addToKey_keys] at hk
        by_cases hmem : iname ∈ st.2.map Prod.fst
        · rw [if_pos hmem] at hk
          exact Or.inl hk
        · rw [if_neg hmem] at hk
          rw [List.mem_append] at hk
          cases hk with
          | inl hk => exact Or.inl hk
          | inr hk => simp at hk; exact Or.inr hk
    · rw [add_file_not_addable (v := .link l) (by simp [isAddable, hf])] at h
      have h2 := (Except.ok.injEq _ _).mp h
      intro k hk
      rw [← h2] at hk
      exact Or.inl hk

theorem add_file_files_not_addable {st st' : PlanState} {iname : String}
    {sub : Option String} {v : BVal} (hv : isAddable v = false)
    (h : add_file st iname sub v = .ok st') : st' = st := by
  rw [add_file_not_addable hv] at h
  exact ((Except.ok.injEq _ _).mp h).symm

theorem addFileArrayLoop_dirs {iname : String} {numDigits : Nat} :
    ∀ (ps : List (Nat × BVal)) (st st' : PlanState),
      addFileArrayLoop iname numDigits st ps = .ok st' →
      st'.1 = st.1 ++ ps.filterMap (fun p =>
        if isAddable p.2 then some (pathJoin iname (subdirNameFor numDigits p.1)) else none) := by
  intro ps
  induction ps with
  | nil =>
    intro st st' h
    have h2 := (Except.ok.injEq _ _).mp h
    simp [← h2]
  | cons p ps ih =>
    intro st st' h
    obtain ⟨i, v⟩ := p
    simp only [addFileArrayLoop] at h
    cases hadd : add_file st iname (some (subdirNameFor numDigits i)) v with
    | error e => rw [hadd] at h; exact absurd h (by simp)
    | ok st1 =>
      rw [hadd] at h
      have hd := add_file_dirs hadd
      have htail := ih st1 st' h
      rw [htail, hd]
      by_cases hv : isAddable v
      · simp [hv, trgDir]
      · simp [hv]

theorem addFileArrayLoop_keys {iname : String} {numDigits : Nat} :
    ∀ (ps : List (Nat × BVal)) (st st' : PlanState),
      addFileArrayLoop iname numDigits st ps = .ok st' →
      ∀ k ∈ st'.2.map Prod.fst, k ∈ st.2.map Prod.fst ∨ k = iname := by
  intro ps
  induction ps with
  | nil =>
    intro st st' h
    have h2 := (Except.ok.injEq _ _).mp h
    rw [← h2]
    intro k hk
    exact Or.inl hk
  | cons p ps ih =>
    intro st st' h
    obtain ⟨i, v⟩ := p
    simp only [addFileArrayLoop] at h
    cases hadd : add_file st iname (some (subdirNameFor numDigits i)) v with
    | error e => rw [hadd] at h; exact absurd h (by simp)
    | ok st1 =>
      rw [hadd] at h
      intro k hk
      cases ih st1 st' h k hk with
      | inl h1 =>
        cases add_file_keys hadd k h1 with
        | inl h2 => exact Or.inl h2
        | inr h2 => exact Or.inr h2
      | inr h1 => exact Or.inr h1

theorem addFileArrayLoop_not_addable {iname : String} {numDigits : Nat} :
    ∀ (ps : List (Nat × BVal)) (st : PlanState),
      (∀ p ∈ ps, isAddable p.2 = false) →
      addFileArrayLoop iname numDigits st ps = .ok st := by
  intro ps
  induction ps with
  | nil => intro st _; rfl
  | cons p ps ih =>
    intro st hall
    obtain ⟨i, v⟩ := p
    have hv : isAddable v = false := hall (i, v) (by simp)
    simp only [addFileArrayLoop]
    rw [add_file_not_addable hv]
    exact ih st (fun q hq => hall q (by simp [hq]))

theorem planEntry_dirs {st st' : PlanState} {e : String × IVal}
    (h : planEntry st e = .ok st') : st'.1 = st.1 ++ entryDirs e := by
  obtain ⟨k, v⟩ := e
  cases v with
  | base b =>
    have hd := add_file_dirs (show add_file st k none b = .ok st' from h)
    rw [hd]
    simp only [entryDirs, trgDir]
  | list vs =>
    simp only [planEntry, add_file_array] at h
    by_cases hlen : vs.length = 0
    · rw [if_pos hlen] at h
      have h2 := (Except.ok.injEq _ _).mp h
      simp [← h2, entryDirs, hlen]
    · rw [if_neg hlen] at h
      have hloop := addFileArrayLoop_dirs vs.enum _ _ h
      simp only at hloop
      rw [hloop]
      simp [entryDirs, hlen]

theorem planEntry_keys {st st' : PlanState} {e : String × IVal}
    (h : planEntry st e = .ok st') :
    ∀ k ∈ st'.2.map Prod.fst, k ∈ st.2.map Prod.fst ∨ k = e.1 := by
  obtain ⟨k0, v⟩ := e
  cases v with
  | base b => exact add_file_keys (show add_file st k0 none b = .ok st' from h)
  | list vs =>
    simp only [planEntry, add_file_array] at h
    by_cases hlen : vs.length = 0
    · rw [if_pos hlen] at h
      have h2 := (Except.ok.injEq _ _).mp h
      rw [← h2]
      intro k hk
      exact Or.inl hk
    · rw [if_neg hlen] at h
      intro k hk
      exact addFileArrayLoop_keys vs.enum _ _ h k hk

theorem planEntry_noncontrib {st : PlanState} {e : String × IVal}
    (h : contributes e = false) :
    planEntry st e = .ok (st.1 ++ entryDirs e, st.2) := by
  obtain ⟨k, v⟩ := e
  cases v with
  | base b =>
    have hb : isAddable b = false := h
    show add_file st k none b = _
    rw [add_file_not_addable hb]
    simp [entryDirs, hb]
  | list vs =>
    have hall : ∀ v ∈ vs, isAddable v = false := by
      intro v hv
      have h2 : vs.any isAddable = false := h
      rw [List.any_eq_false] at h2
      simpa using h2 v hv
    show add_file_array st k vs = _
    simp only [add_file_array]
    by_cases hlen : vs.length = 0
    · simp [hlen, entryDirs]
    · rw [if_neg hlen]
      have henum : ∀ p ∈ vs.enum, isAddable p.2 = false := by
        intro p hp
        exact hall p.2 (List.snd_mem_of_mem_enum hp)
      rw [addFileArrayLoop_not_addable vs.enum _ henum]
      simp only [entryDirs, hlen, if_neg]
      have hnil : vs.enum.filterMap (fun p =>
          if isAddable p.2 then
            some (pathJoin k (subdirNameFor ((pyStr (vs.length - 1)).length) p.1))
          else none) = [] := by
        rw [List.filterMap_eq_nil_iff]
        intro p hp
        simp [henum p hp]
      simp [hnil]

theorem planLoop_dirs :
    ∀ (l : JobInput) (st st' : PlanState), planLoop st l = .ok st' →
      st'.1 = st.1 ++ l.flatMap entryDirs := by
  intro l
  induction l with
  | nil =>
    intro st st' h
    have h2 := (Except.ok.injEq _ _).mp h
    simp [← h2]
  | cons e l ih =>
    intro st st' h
    simp only [planLoop] at h
    cases he : planEntry st e with
    | error err => rw [he] at h; exact absurd h (by simp)
    | ok st1 =>
      rw [he] at h
      rw [ih st1 st' h, planEntry_dirs he]
      simp

theorem planLoop_keys :
    ∀ (l : JobInput) (st st' : PlanState), planLoop st l = .ok st' →
      ∀ k ∈ st'.2.map Prod.fst, k ∈ st.2.map Prod.fst ∨ k ∈ l.map Prod.fst := by
  intro l
  induction l with
  | nil =>
    intro st st' h
    have h2 := (Except.ok.injEq _ _).mp h
    rw [← h2]
    intro k hk
    exact Or.inl hk
  | cons e l ih =>
    intro st st' h
    simp only [planLoop] at h
    cases he : planEntry st e with
    | error err => rw [he] at h; exact absurd h (by simp)
    | ok st1 =>
      rw [he] at h
      intro k hk
      cases ih st1 st' h k hk with
      | inl h1 =>
        cases planEntry_keys he k h1 with
        | inl h2 => exact Or.inl h2
        | inr h2 => exact Or.inr (by simp [h2])
      | inr h1 => exact Or.inr (by simp [h1])

theorem planLoop_not_key :
    ∀ (l : JobInput) (st st' : PlanState) (k : String),
      planLoop st l = .ok st' →
      (∀ e ∈ l, e.1 = k → contributes e = false) →
      k ∉ st.2.map Prod.fst → k ∉ st'.2.map Prod.fst := by
  intro l
  induction l with
  | nil =>
    intro st st' k h _ hnot
    have h2 := (Except.ok.injEq _ _).mp h
    rw [← h2]
    exact hnot
  | cons e l ih =>
    intro st st' k h hnone hnot
    simp only [planLoop] at h
    cases he : planEntry st e with
    | error err => rw [he] at h; exact absurd h (by simp)
    | ok st1 =>
      rw [he] at h
      have hnone2 : ∀ e2 ∈ l, e2.1 = k → contributes e2 = false :=
        fun e2 he2 hk => hnone e2 (List.mem_cons_of_mem _ he2) hk
      have hnot1 : k ∉ st1.2.map Prod.fst := by
        by_cases hek : e.1 = k
        · have hc : contributes e = false := hnone e (by simp) hek
          have heq : planEntry st e = .ok (st.1 ++ entryDirs e, st.2) :=
            planEntry_noncontrib hc
          rw [heq] at he
          have h2 := (Except.ok.injEq _ _).mp he
          rw [← h2]
          exact hnot
        · intro hk1
          cases planEntry_keys he k hk1 with
          | inl h2 => exact hnot h2
          | inr h2 => exact hek (h2.symm)
      exact ih st1 st' k h hnone2 hnot1

theorem get_job_input_filenames_ok {input : JobInput} {d : List String}
    {f : List (String × List FileDesc)} {r : JobInput}
    (h : get_job_input_filenames input = .ok (d, f, r)) :
    planLoop ([], []) input = .ok (d, f) ∧
    r = input.filter (fun kv => decide (kv.1 ∉ f.map Prod.fst)) := by
  simp only [get_job_input_filenames] at h
  cases hp : planLoop ([], []) input with
  | error e => rw [hp] at h; exact absurd h (by simp)
  | ok st =>
    rw [hp] at h
    have h2 := (Except.ok.injEq _ _).mp h
    obtain ⟨h3, h4, h5⟩ : st.1 = d ∧ st.2 = f ∧
        input.filter (fun kv => decide (kv.1 ∉ st.2.map Prod.fst)) = r := by
      constructor
      · exact congrArg Prod.fst h2
      constructor
      · exact congrArg (fun p => p.2.1) h2
      · exact congrArg (fun p => p.2.2) h2
    constructor
    · have hst : st = (d, f) := Prod.ext h3 h4
      rw [hst]
    · rw [← h5, h4]

theorem mem_rest_iff {input : JobInput} {f : List (String × List FileDesc)} {r : JobInput}
    (hr : r = input.filter (fun kv => decide (kv.1 ∉ f.map Prod.fst)))
    (k : String) (v : IVal) :
    (k, v) ∈ r ↔ ((k, v) ∈ input ∧ k ∉ f.map Prod.fst) := by
  rw [hr, List.mem_filter]
  simp

theorem nodup_keys_unique :
    ∀ (l : JobInput), (l.map Prod.fst).Nodup →
      ∀ (k : String) (v : IVal), (k, v) ∈ l → ∀ e ∈ l, e.1 = k → e = (k, v) := by
  intro l
  induction l with
  | nil => intro _ k v hmem; simp at hmem
  | cons a l ih =>
    intro hnd k v hmem e hemem hek
    rw [List.map_cons, List.nodup_cons] at hnd
    obtain ⟨hnd1, hnd2⟩ := hnd
    rcases List.mem_cons.mp hmem with hma | hml
    · rcases List.mem_cons.mp hemem with hea | hel
      · rw [hea, hma]
      · exfalso
        apply hnd1
        have hak : a.1 = k := by rw [← hma]
        rw [List.mem_map]
        exact ⟨e, hel, by rw [hek, hak]⟩
    · rcases List.mem_cons.mp hemem with hea | hel
      · exfalso
        apply hnd1
        have hak : a.1 = k := by rw [← hea]; exact hek
        rw [List.mem_map]
        exact ⟨(k, v), hml, by rw [hak]⟩
      · exact ih hnd2 k v hml e hel hek

/-! ## Claims C1, C3, C4 -/

/-- C1: for every job input, the planner assigns each input key to exactly
one of the file-descriptor mapping and the rest hash — never both, never
neither (stated, as the claim is, with empty-array-valued keys carved
out; the proof does not in fact need the carve-out, since the code also
classifies empty-array keys, into the rest hash). -/
theorem c1_key_partition (input : JobInput) (d : List String)
    (f : List (String × List FileDesc)) (r : JobInput) (k : String) (v : IVal)
    (hok : get_job_input_filenames input = .ok (d, f, r))
    (hmem : (k, v) ∈ input) (_hne : v ≠ IVal.list []) :
    Xor' (k ∈ f.map Prod.fst) (k ∈ r.map Prod.fst) := by
  obtain ⟨hplan, hr⟩ := get_job_input_filenames_ok hok
  unfold Xor'
  by_cases hk : k ∈ f.map Prod.fst
  · refine Or.inl ⟨hk, ?_⟩
    intro hkr
    rw [List.mem_map] at hkr
    obtain ⟨p, hp, hpk⟩ := hkr
    obtain ⟨pk, pv⟩ := p
    have hmem2 := (mem_rest_iff hr pk pv).mp hp
    have hpk2 : pk = k := hpk
    rw [hpk2] at hmem2
    exact hmem2.2 hk
  · refine Or.inr ⟨?_, hk⟩
    rw [List.mem_map]
    exact ⟨(k, v), (mem_rest_iff hr k v).mpr ⟨hmem, hk⟩, rfl⟩

/-- Witness for C1: scenario A of the spec. -/
theorem c1_key_partition_witness :
    Xor' ("seq1" ∈ ([("seq1",
            [(⟨"seq1/NC_1.fasta", ⟨"NC_1.fasta", "file-1111", true⟩,
               "file-1111"⟩ : FileDesc)])].map Prod.fst))
         ("seq1" ∈ ([("evalue", IVal.base (BVal.other "0.01"))].map Prod.fst)) :=
  c1_key_partition
    [("seq1", .base (.link ⟨"L1", ⟨"NC_1.fasta", "file-1111", true⟩⟩)),
     ("evalue", .base (.other "0.01"))]
    ["seq1"]
    [("seq1", [⟨"seq1/NC_1.fasta", ⟨"NC_1.fasta", "file-1111", true⟩, "file-1111"⟩])]
    [("evalue", .base (.other "0.01"))]
    "seq1" (.base (.link ⟨"L1", ⟨"NC_1.fasta", "file-1111", true⟩⟩))
    (by rfl) (by decide) (by decide)

/-- C3 counterexample: the claim says an empty-array-valued key is dropped
entirely and in particular is *not* put into the rest hash; but on the
input with the single key `foo` mapped to `[]`, the code puts
`("foo", [])` into the rest hash. -/
theorem c3_counterexample :
    get_job_input_filenames [("foo", IVal.list [])] =
      .ok ([], [], [("foo", IVal.list [])]) := rfl

/-- C3 amended: a key whose value is the empty list yields no directory
entry and no file descriptors, but it is *not* dropped: it is placed into
the rest hash with its original empty-list value. -/
theorem c3_empty_array (input : JobInput) (d : List String)
    (f : List (String × List FileDesc)) (r : JobInput) (k : String)
    (hok : get_job_input_filenames input = .ok (d, f, r))
    (hmem : (k, IVal.list []) ∈ input)
    (hnd : (input.map Prod.fst).Nodup) :
    k ∉ f.map Prod.fst ∧ (k, IVal.list []) ∈ r ∧
    d = input.flatMap entryDirs ∧ entryDirs (k, IVal.list []) = [] := by
  obtain ⟨hplan, hr⟩ := get_job_input_filenames_ok hok
  have hentries : ∀ e ∈ input, e.1 = k → contributes e = false := by
    intro e he hek
    have heq := nodup_keys_unique input hnd k (IVal.list []) hmem e he hek
    rw [heq]
    rfl
  have hnotf : k ∉ f.map Prod.fst := by
    have h2 := planLoop_not_key input ([], []) (d, f) k hplan hentries (by simp)
    simpa using h2
  refine ⟨hnotf, (mem_rest_iff hr k (IVal.list [])).mpr ⟨hmem, hnotf⟩, ?_, rfl⟩
  simpa using planLoop_dirs input ([], []) (d, f) hplan

/-- Witness for C3 (amended): a two-key input with an empty array. -/
theorem c3_empty_array_witness :
    "foo" ∉ ([] : List (String × List FileDesc)).map Prod.fst ∧
    ("foo", IVal.list []) ∈
      [("foo", IVal.list []), ("bar", IVal.base (BVal.str "z"))] ∧
    ([] : List String) =
      [("foo", IVal.list []), ("bar", IVal.base (BVal.str "z"))].flatMap entryDirs ∧
    entryDirs ("foo", IVal.list []) = [] :=
  c3_empty_array
    [("foo", IVal.list []), ("bar", IVal.base (BVal.str "z"))]
    [] [] [("foo", IVal.list []), ("bar", IVal.base (BVal.str "z"))] "foo"
    (by rfl) (by decide) (by decide)

/-- C4 counterexample: the claim says the directory plan lists only the
parent array directory, not the per-index subdirectories; but on a
one-element file array under key `reads` the code's directory list is
`["reads", "reads/0"]`, which does list the per-index subdirectory. -/
theorem c4_counterexample :
    get_job_input_filenames
      [("reads", IVal.list [.link ⟨"LA", ⟨"A.fastq", "file-A", true⟩⟩])] =
    .ok (["reads", "reads/0"],
         [("reads", [⟨"reads/0/A.fastq", ⟨"A.fastq", "file-A", true⟩, "file-A"⟩])],
         []) := rfl

/-- C4 amended: the directory plan contains, per entry: the key itself for
each scalar input that resolves to a file; for each non-empty array-valued
input, the array's own directory *followed by one `key/<padded index>`
entry for every element that resolves to a file*; and nothing for other
entries — i.e. the per-index subdirectories of array inputs are listed in
addition to the parent array directory. -/
theorem c4_directory_plan (input : JobInput) (d : List String)
    (f : List (String × List FileDesc)) (r : JobInput)
    (hok : get_job_input_filenames input = .ok (d, f, r)) :
    d = input.flatMap entryDirs := by
  obtain ⟨hplan, _⟩ := get_job_input_filenames_ok hok
  simpa using planLoop_dirs input ([], []) (d, f) hplan

/-- Witness for C4 (amended): a scalar file, a two-file array, and a
non-file value. -/
theorem c4_directory_plan_witness :
    (["seq1", "reads", "reads/0", "reads/1"] : List String) =
      [("seq1", IVal.base (.link ⟨"L1", ⟨"NC_1.fasta", "file-1111", true⟩⟩)),
       ("reads", IVal.list [.link ⟨"LA", ⟨"A.fastq", "file-A", true⟩⟩,
                            .link ⟨"LB", ⟨"B.fastq", "file-B", true⟩⟩]),
       ("evalue", IVal.base (.other "0.01"))].flatMap entryDirs :=
  c4_directory_plan
    [("seq1", IVal.base (.link ⟨"L1", ⟨"NC_1.fasta", "file-1111", true⟩⟩)),
     ("reads", IVal.list [.link ⟨"LA", ⟨"A.fastq", "file-A", true⟩⟩,
                          .link ⟨"LB", ⟨"B.fastq", "file-B", true⟩⟩]),
     ("evalue", IVal.base (.other "0.01"))]
    ["seq1", "reads", "reads/0", "reads/1"]
    [("seq1", [⟨"seq1/NC_1.fasta", ⟨"NC_1.fasta", "file-1111", true⟩, "file-1111"⟩]),
     ("reads", [⟨"reads/0/A.fastq", ⟨"A.fastq", "file-A", true⟩, "file-A"⟩,
                ⟨"reads/1/B.fastq", ⟨"B.fastq", "file-B", true⟩, "file-B"⟩])]
    [("evalue", IVal.base (.other "0.01"))]
    (by rfl)

/-! ## Claim C10: non-file remote references -/

/-- A value that `dxpy.is_dxlink` recognizes but whose resolved handler is
not a file object. -/
def isNonFileRef : BVal → Bool
  | .link l => !l.handle.isFile
  | _ => false

/-- A job-input value all of whose (element) values are non-file remote
references. -/
def allNonFileRefs : IVal → Bool
  | .base b => isNonFileRef b
  | .list bs => bs.all isNonFileRef

/-- Replace every non-file remote reference by a plain (non-reference)
JSON value — its own serialization. -/
def scrubB : BVal → BVal
  | .link l => if l.handle.isFile then .link l else .other l.dump
  | b => b

def scrubI : IVal → IVal
  | .base b => .base (scrubB b)
  | .list bs => .list (bs.map scrubB)

def scrubEntry (e : String × IVal) : String × IVal := (e.1, scrubI e.2)

theorem add_file_scrub (st : PlanState) (iname : String) (sub : Option String) (v : BVal) :
    add_file st iname sub (scrubB v) = add_file st iname sub v := by
  cases v with
  | str s => rfl
  | other d => rfl
  | link l =>
    by_cases hf : l.handle.isFile
    · simp [scrubB, hf]
    · simp only [scrubB, hf, if_neg, Bool.false_eq_true, not_false_iff]
      rw [add_file_not_addable (v := .link l) (by simp [isAddable, hf])]
      rfl

theorem addFileArrayLoop_scrub (iname : String) (numDigits : Nat) :
    ∀ (ps : List (Nat × BVal)) (st : PlanState),
      addFileArrayLoop iname numDigits st (ps.map (Prod.map id scrubB)) =
      addFileArrayLoop iname numDigits st ps := by
  intro ps
  induction ps with
  | nil => intro st; rfl
  | cons p ps ih =>
    intro st
    obtain ⟨i, v⟩ := p
    show addFileArrayLoop iname numDigits st ((i, scrubB v) :: ps.map (Prod.map id scrubB)) = _
    simp only [addFileArrayLoop, add_file_scrub]
    cases add_file st iname (some (subdirNameFor numDigits i)) v with
    | error e => rfl
    | ok st1 => exact ih st1

theorem planEntry_scrub (st : PlanState) (e : String × IVal) :
    planEntry st (scrubEntry e) = planEntry st e := by
  obtain ⟨k, v⟩ := e
  cases v with
  | base b =>
    show add_file st k none (scrubB b) = add_file st k none b
    exact add_file_scrub st k none b
  | list vs =>
    show add_file_array st k (vs.map scrubB) = add_file_array st k vs
    simp only [add_file_array, List.length_map]
    by_cases hlen : vs.length = 0
    · simp [hlen]
    · rw [if_neg hlen, if_neg hlen]
      rw [List.enum_map]
      exact addFileArrayLoop_scrub k _ vs.enum _

theorem planLoop_scrub :
    ∀ (l : JobInput) (st : PlanState),
      planLoop st (l.map scrubEntry) = planLoop st l := by
  intro l
  induction l with
  | nil => intro st; rfl
  | cons e l ih =>
    intro st
    show planLoop st (scrubEntry e :: l.map scrubEntry) = _
    simp only [planLoop, planEntry_scrub]
    cases planEntry st e with
    | error err => rfl
    | ok st1 => exact ih st1

/-- C10: a remote-file reference whose resolved handler is not a file
object is skipped by the planner exactly as a non-reference value is —
replacing every such reference by a plain value changes neither the
directory list nor the file mapping, and maps the rest hash entrywise —
and a key all of whose values are such non-file references ends up in the
rest hash, not in the file mapping. -/
theorem c10_nonfile_refs :
    (∀ (input : JobInput) (d : List String) (f : List (String × List FileDesc)) (r : JobInput),
        get_job_input_filenames input = .ok (d, f, r) →
        get_job_input_filenames (input.map scrubEntry) = .ok (d, f, r.map scrubEntry))
    ∧ (∀ (input : JobInput) (d : List String) (f : List (String × List FileDesc))
          (r : JobInput) (k : String) (v : IVal),
        get_job_input_filenames input = .ok (d, f, r) →
        (k, v) ∈ input → (input.map Prod.fst).Nodup → allNonFileRefs v = true →
        k ∉ f.map Prod.fst ∧ k ∈ r.map Prod.fst) := by
  constructor
  · intro input d f r hok
    obtain ⟨hplan, hr⟩ := get_job_input_filenames_ok hok
    simp only [get_job_input_filenames, planLoop_scrub, hplan]
    have hfil : (input.map scrubEntry).filter
        (fun kv => decide (kv.1 ∉ ((d, f) : PlanState).2.map Prod.fst)) =
        (input.filter (fun kv => decide (kv.1 ∉ ((d, f) : PlanState).2.map Prod.fst))).map
          scrubEntry := by
      rw [List.filter_map]
      rfl
    rw [hfil, ← hr]
  · intro input d f r k v hok hmem hnd hall
    obtain ⟨hplan, hr⟩ := get_job_input_filenames_ok hok
    have hcontrib : contributes (k, v) = false := by
      cases v with
      | base b =>
        cases b with
        | str s => rfl
        | other dump => rfl
        | link l =>
          have : isNonFileRef (.link l) = true := hall
          simp only [isNonFileRef, Bool.not_eq_true'] at this
          show isAddable (.link l) = false
          simp [isAddable, this]
      | list bs =>
        show bs.any isAddable = false
        rw [List.any_eq_false]
        intro b hb
        have hbn : isNonFileRef b = true := by
          have h2 : bs.all isNonFileRef = true := hall
          rw [List.all_eq_true] at h2
          exact h2 b hb
        cases b with
        | str s => simp [isAddable]
        | other dump => simp [isAddable]
        | link l =>
          simp only [isNonFileRef, Bool.not_eq_true'] at hbn
          simp [isAddable, hbn]
    have hentries : ∀ e ∈ input, e.1 = k → contributes e = false := by
      intro e he hek
      have heq := nodup_keys_unique input hnd k v hmem e he hek
      rw [heq]
      exact hcontrib
    have hnotf : k ∉ f.map Prod.fst := by
      have h2 := planLoop_not_key input ([], []) (d, f) k hplan hentries (by simp)
      simpa using h2
    refine ⟨hnotf, ?_⟩
    rw [List.mem_map]
    exact ⟨(k, v), (mem_rest_iff hr k v).mpr ⟨hmem, hnotf⟩, rfl⟩

/-- Witness for C10: a one-key input whose array holds a single non-file
reference (a resolved record object). -/
theorem c10_nonfile_refs_witness :
    (get_job_input_filenames
        [("w", IVal.list [BVal.other "LN"])] =
      .ok (["w"], [], [("w", IVal.list [BVal.other "LN"])]))
    ∧ ("w" ∉ ([] : List (String × List FileDesc)).map Prod.fst ∧
       "w" ∈ ([("w", IVal.list [BVal.link ⟨"LN", ⟨"n.txt", "record-1", false⟩⟩])].map
         Prod.fst)) :=
  ⟨c10_nonfile_refs.1
      [("w", IVal.list [BVal.link ⟨"LN", ⟨"n.txt", "record-1", false⟩⟩])]
      ["w"] [] [("w", IVal.list [BVal.link ⟨"LN", ⟨"n.txt", "record-1", false⟩⟩])]
      (by rfl),
   c10_nonfile_refs.2
      [("w", IVal.list [BVal.link ⟨"LN", ⟨"n.txt", "record-1", false⟩⟩])]
      ["w"] [] [("w", IVal.list [BVal.link ⟨"LN", ⟨"n.txt", "record-1", false⟩⟩])]
      "w" (IVal.list [BVal.link ⟨"LN", ⟨"n.txt", "record-1", false⟩⟩])
      (by rfl) (by decide) (by decide) (by decide)⟩

/-! ## Claims C5, C6, C8, C9 -/

theorem replaceSlashAux_eq (cs : List Char) :
    replaceSlashAux cs = cs.flatMap (fun c => if c = '/' then ['%', '2', 'F'] else [c]) := by
  induction cs with
  | nil => rfl
  | cons c cs ih =>
    by_cases h : c = '/'
    · simp [replaceSlashAux, h, ih]
    · simp [replaceSlashAux, h, ih]

/-- C5: the filename sanitizer fails (with the invalid-filename error)
exactly when the name is `.` or `..`; on every other name it returns the
name with each `/` replaced by the literal three-character sequence `%2F`
and with every other character kept unchanged. -/
theorem c5_sanitizer (name : String) :
    (make_unix_filename name = .error ("Invalid filename " ++ name) ↔
      (name = "." ∨ name = "..")) ∧
    (¬(name = "." ∨ name = "..") → make_unix_filename name = .ok (sanitizeSpec name)) := by
  constructor
  · constructor
    · intro h
      by_contra hn
      simp only [make_unix_filename, if_neg hn] at h
      exact absurd h (by simp)
    · intro h
      simp only [make_unix_filename, if_pos h]
  · intro hn
    simp only [make_unix_filename, if_neg hn, sanitizeSpec, replaceSlashAux_eq]

/-- Witness for C5: `a/b` is sanitized to `a%2Fb`, and `.` is rejected. -/
theorem c5_sanitizer_witness :
    make_unix_filename "a/b" = .ok "a%2Fb" ∧
    make_unix_filename "." = .error "Invalid filename ." := by
  constructor
  · have h := (c5_sanitizer "a/b").2 (by decide)
    rw [show sanitizeSpec "a/b" = "a%2Fb" from rfl] at h
    exact h
  · exact (c5_sanitizer ".").1.mpr (Or.inl rfl)

/-- C6 (refuting the claim — the code has a bug): `rm_output_json_file`
catches `OSError` and compares `e.errno` against `errno.ENOENT`, but the
module never imports `errno`, so the handler itself raises `NameError`.
Deleting an absent file therefore raises `NameError` instead of
succeeding as a no-op, and any other deletion failure surfaces as
`NameError` instead of the original `OSError`. -/
theorem c6_rm_output_json_bug :
    rm_output_json_file RemoveResult.enoent = .exc "NameError" ∧
    rm_output_json_file (RemoveResult.otherError 13) = .exc "NameError" ∧
    "errno" ∉ module_imports :=
  ⟨rfl, rfl, by decide⟩

theorem analyze_fold_pfx (relHomeDir : String) :
    ∀ (entries : List FileDesc) (d : KeyDesc),
      d.pfx = d.filename.map (fun b => (splitextBase b).1) →
      (entries.foldl (analyzeEntry relHomeDir) d).pfx =
        (entries.foldl (analyzeEntry relHomeDir) d).filename.map
          (fun b => (splitextBase b).1) := by
  intro entries
  induction entries with
  | nil => intro d h; exact h
  | cons e entries ih =>
    intro d h
    apply ih
    simp [analyzeEntry, h]

/-- C8: for every file key, the analyzer's prefix sequence is exactly the
filename sequence with a single `splitext` pass applied to each element
(only the final extension is removed; compression suffixes get no special
treatment). -/
theorem c8_prefix_single_splitext (input : JobInput)
    (descs : List (String × KeyDesc)) (rest : JobInput) (kd : String × KeyDesc)
    (hok : analyze_bash_vars input = .ok (descs, rest)) (hmem : kd ∈ descs) :
    kd.2.pfx = kd.2.filename.map (fun b => (splitextBase b).1) := by
  simp only [analyze_bash_vars] at hok
  cases hg : get_job_input_filenames input with
  | error e => rw [hg] at hok; exact absurd hok (by simp)
  | ok trip =>
    rw [hg] at hok
    obtain ⟨dd, ff, rr⟩ := trip
    simp only at hok
    have h2 := (Except.ok.injEq _ _).mp hok
    have hdescs : ff.map (fun ke =>
        (ke.1, ke.2.foldl (analyzeEntry (pathJoin "$HOME" "in")) emptyKeyDesc)) = descs :=
      congrArg Prod.fst h2
    rw [← hdescs] at hmem
    rw [List.mem_map] at hmem
    obtain ⟨ke, _hke, hkd⟩ := hmem
    rw [← hkd]
    exact analyze_fold_pfx _ ke.2 emptyKeyDesc rfl

/-- Witness for C8: the prefix of `A.tar.gz` is `A.tar`. -/
theorem c8_prefix_single_splitext_witness :
    (["A.tar"] : List String) = ["A.tar.gz"].map (fun b => (splitextBase b).1) :=
  c8_prefix_single_splitext
    [("genes", .base (.link ⟨"LG", ⟨"A.tar.gz", "file-G", true⟩⟩))]
    [("genes", ⟨[⟨"A.tar.gz", "file-G", true⟩], ["A.tar.gz"], ["A.tar"],
                ["$HOME/in/genes/A.tar.gz"]⟩)]
    []
    ("genes", ⟨[⟨"A.tar.gz", "file-G", true⟩], ["A.tar.gz"], ["A.tar"],
               ["$HOME/in/genes/A.tar.gz"]⟩)
    (by rfl) (by decide)

/-- C9 (the code cannot reach the claimed failure): `string_of_value`'s
own text (source lines 328-336) indexes `val[0]` whenever its list
argument does not have more than one element, so on the empty list the
intended code raises `IndexError`, and the intended `gen_bash_vars` fails
with it on a job input whose rest hash carries an empty-list value instead
of producing a binding — both proven of the embedding below. But
`string_of_value` is a local function inside `gen_bash_vars`, whose body
never parses: source line 340 leaves a parenthesis open before its
terminating colon, so the program as written fails with `SyntaxError` at
compile time, before any call could raise `IndexError`. -/
theorem c9_empty_list_indexing_bug :
    string_of_value (SVal.list []) = .error "IndexError" ∧
    gen_bash_vars [] [("x", IVal.list [])] = .error "IndexError" ∧
    parenBalance source_line_340.data = 1 :=
  ⟨rfl, rfl, by decide⟩

/-! ## Claim C7: the collision guard -/

/-- Invariant of the synthesizer state: the `all_keys` set tracks exactly
the registered keys, registered keys are pairwise distinct, and none of
them is an environment variable name. -/
def GoodState (env : List String) (st : GenState) : Prop :=
  st.all_keys = st.var_defs.map Prod.fst ∧
  (st.var_defs.map Prod.fst).Nodup ∧
  List.Disjoint (st.var_defs.map Prod.fst) env

theorem gen_text_line_good {env : List String} {st : GenState}
    (h : GoodState env st) (key val : String) :
    GoodState env (gen_text_line env st key val) ∧
    (gen_text_line env st key val).var_defs.length +
      (gen_text_line env st key val).warnings.length =
      st.var_defs.length + st.warnings.length + 1 := by
  obtain ⟨h1, h2, h3⟩ := h
  by_cases hc : key ∉ env ∧ key ∉ st.all_keys
  · simp only [gen_text_line, if_pos hc]
    refine ⟨⟨?_, ?_, ?_⟩, ?_⟩
    · simp [h1]
    · rw [List.map_append]
      rw [List.nodup_append]
      refine ⟨h2, List.nodup_singleton _, ?_⟩
      intro a ha hb
      simp only [List.map_cons, List.map_nil, List.mem_singleton] at hb
      subst hb
      exact hc.2 (h1 ▸ ha)
    · rw [List.map_append]
      intro a ha hb
      rw [List.mem_append] at ha
      cases ha with
      | inl ha => exact h3 ha hb
      | inr ha =>
        simp only [List.map_cons, List.map_nil, List.mem_singleton] at ha
        subst ha
        exact hc.1 hb
    · simp only [List.length_append, List.length_cons, List.length_nil]
      omega
  · simp only [gen_text_line, if_neg hc]
    refine ⟨⟨h1, h2, h3⟩, ?_⟩
    simp
    omega

theorem genFileKeys_good {env : List String} :
    ∀ (descs : List (String × KeyDesc)) (st st' : GenState),
      genFileKeys env st descs = .ok st' → GoodState env st →
      GoodState env st' ∧
      st'.var_defs.length + st'.warnings.length =
        st.var_defs.length + st.warnings.length + 4 * descs.length := by
  intro descs
  induction descs with
  | nil =>
    intro st st' h hg
    have h2 := (Except.ok.injEq _ _).mp h
    rw [← h2]
    exact ⟨hg, by simp⟩
  | cons kd descs ih =>
    intro st st' h hg
    obtain ⟨file_key, desc⟩ := kd
    simp only [genFileKeys] at h
    cases hv1 : string_of_value (.list (desc.handler.map Elem.ehandle)) with
    | error e => rw [hv1] at h; exact absurd h (by simp)
    | ok v1 =>
      rw [hv1] at h
      cases hv2 : string_of_value (.list (desc.filename.map Elem.estr)) with
      | error e => rw [hv2] at h; exact absurd h (by simp)
      | ok v2 =>
        rw [hv2] at h
        cases hv3 : string_of_value (.list (desc.pfx.map Elem.estr)) with
        | error e => rw [hv3] at h; exact absurd h (by simp)
        | ok v3 =>
          rw [hv3] at h
          cases hv4 : string_of_value (.list (desc.path.map Elem.estr)) with
          | error e => rw [hv4] at h; exact absurd h (by simp)
          | ok v4 =>
            rw [hv4] at h
            have g1 := gen_text_line_good hg file_key v1
            have g2 := gen_text_line_good g1.1 (file_key ++ "_filename") v2
            have g3 := gen_text_line_good g2.1 (file_key ++ "_prefix") v3
            have g4 := gen_text_line_good g3.1 (file_key ++ "_path") v4
            have := ih _ st' h g4.1
            refine ⟨this.1, ?_⟩
            have e1 := g1.2
            have e2 := g2.2
            have e3 := g3.2
            have e4 := g4.2
            have e5 := this.2
            simp only [List.length_cons]
            omega

theorem genRestKeys_good {env : List String} :
    ∀ (rest : JobInput) (st st' : GenState),
      genRestKeys env st rest = .ok st' → GoodState env st →
      GoodState env st' ∧
      st'.var_defs.length + st'.warnings.length =
        st.var_defs.length + st.warnings.length + rest.length := by
  intro rest
  induction rest with
  | nil =>
    intro st st' h hg
    have h2 := (Except.ok.injEq _ _).mp h
    rw [← h2]
    exact ⟨hg, by simp⟩
  | cons kv rest ih =>
    intro st st' h hg
    obtain ⟨key, v⟩ := kv
    simp only [genRestKeys] at h
    cases hv : string_of_value (svalOfIVal v) with
    | error e => rw [hv] at h; exact absurd h (by simp)
    | ok s =>
      rw [hv] at h
      have g1 := gen_text_line_good hg key s
      have := ih _ st' h g1.1
      refine ⟨this.1, ?_⟩
      have e1 := g1.2
      have e2 := this.2
      simp only [List.length_cons]
      omega

/-- The collision guard of the evidently intended `gen_bash_vars`:
whenever the synthesizer returns, its output mapping contains no variable
name from the environment and no duplicate names (a candidate is
registered only if it collides with neither), and every candidate was
either registered or warned about — registration plus warnings account for
all `4 * (number of file keys) + (number of rest keys)` candidates, so a
collision drops only the colliding candidate and synthesis continues. -/
theorem intended_collision_guard (env : List String) (input : JobInput)
    (descs : List (String × KeyDesc)) (rest : JobInput)
    (defs : List (String × String)) (warns : List String)
    (hana : analyze_bash_vars input = .ok (descs, rest))
    (hgen : gen_bash_vars env input = .ok (defs, warns)) :
    List.Disjoint (defs.map Prod.fst) env ∧
    (defs.map Prod.fst).Nodup ∧
    defs.length + warns.length = 4 * descs.length + rest.length := by
  simp only [gen_bash_vars, hana] at hgen
  cases hf : genFileKeys env ⟨[], [], []⟩ descs with
  | error e => rw [hf] at hgen; exact absurd hgen (by simp)
  | ok st1 =>
    rw [hf] at hgen
    have hgen2 : (match genRestKeys env st1 rest with
        | Except.error e => Except.error e
        | Except.ok st => Except.ok (st.var_defs, st.warnings)) =
        Except.ok (defs, warns) := hgen
    cases hr : genRestKeys env st1 rest with
    | error e => rw [hr] at hgen2; exact absurd hgen2 (by simp)
    | ok st2 =>
      rw [hr] at hgen2
      have h2 := (Except.ok.injEq _ _).mp hgen2
      have hdefs : st2.var_defs = defs := congrArg Prod.fst h2
      have hwarns : st2.warnings = warns := congrArg Prod.snd h2
      have hinit : GoodState env ⟨[], [], []⟩ := by
        refine ⟨rfl, List.nodup_nil, ?_⟩
        intro a ha
        simp at ha
      have g1 := genFileKeys_good descs _ st1 hf hinit
      have g2 := genRestKeys_good rest st1 st2 hr g1.1
      obtain ⟨⟨_, hnd, hdisj⟩, hcount⟩ := g2
      rw [hdefs] at hnd hdisj
      have e1 : st1.var_defs.length + st1.warnings.length = 4 * descs.length := by
        simpa using g1.2
      rw [hdefs, hwarns] at hcount
      exact ⟨hdisj, hnd, by omega⟩

/-- C7 (the code cannot exhibit the claimed guard): the header of
`gen_text_line_and_name_collision` (source line 340) opens a parenthesis
it never closes before its terminating colon — a Python SyntaxError, so
the module, and with it `gen_bash_vars`, never compiles and the claimed
collision handling never executes. The guard semantics do hold of the
evidently intended definition (generally: `intended_collision_guard`;
here at a concrete input): with `x` already in the environment, the
embedding of the intended code drops the candidate `x` with a warning,
continues, and registers only `y`. -/
theorem c7_collision_guard_bug :
    parenBalance source_line_340.data = 1 ∧
    source_line_340.data.getLast? = some ':' ∧
    gen_bash_vars ["x"]
        [("x", IVal.base (BVal.str "v")), ("y", IVal.base (BVal.str "w"))] =
      .ok ([("y", "w")], ["x"]) :=
  ⟨by decide, by decide, rfl⟩
